import Mathlib

/-!
Shallow embedding of the audio synthesis and PCM encoding pipeline of
this repository (reference implementation in _exercice_version_prof.py),
together with theorems settling the specification claims.

Modelling conventions:
- a signal is a Lean list; the float samples of the waveform generators
  and of the normalizer are modelled as real numbers, while the PCM codec
  is modelled over the rationals so that it stays executable;
- numpy arange(0, x) is the list of naturals 0 .. ceil(x) - 1 (empty for
  x at most 0);
- the astype cast of a float to a signed 16-bit integer truncates toward
  zero and then wraps modulo 2 to the 16;
- Python functions that raise (max of an empty sequence, frombuffer on a
  buffer whose size is not a multiple of the item size) return Option,
  with none standing for the raised error;
- one auxiliary model (FloatVal, normalizeFloat) additionally tracks the
  IEEE special values infinity and NaN that numpy produces on division
  by zero, which the idealized real-number model cannot express.
-/

namespace Audio

/-- SAMPLING_FREQ = 44100, the fixed sampling rate. -/
def SAMPLING_FREQ : Nat := 44100

/-- SAMPLE_WIDTH = 16, samples are 16-bit. -/
def SAMPLE_WIDTH : Nat := 16

/-- MAX_INT_SAMPLE_VALUE = 2 to the (SAMPLE_WIDTH - 1), minus 1 = 32767. -/
def MAX_INT_SAMPLE_VALUE : Int := 2 ^ (SAMPLE_WIDTH - 1) - 1

/-- Number of frames produced by Python zip over the channel lists: the
length of the shortest channel, and 0 when there are no channels. -/
def numFrames {α : Type} (channels : List (List α)) : Nat :=
  match channels with
  | [] => 0
  | c :: rest => rest.foldl (fun m ch => min m ch.length) c.length

/-- merge_channels(channels): the interleaving
\x5bsample for samples in zip(*channels) for sample in samples\x5d; frame i
holds the i-th sample of every channel, frames are concatenated in order.
Python zip stops at the shortest channel. -/
def merge_channels {α : Type} [Inhabited α] (channels : List (List α)) : List α :=
  ((List.range (numFrames channels)).map
    (fun i => channels.map (fun ch => ch.getD i default))).flatten

/-- Python extended slice l\x5bstart::step\x5d for step at least 1: the
elements at indices start, start + step, start + 2 step, ... -/
def pySliceStride {α : Type} [Inhabited α] (l : List α) (start step : Nat) : List α :=
  (List.range ((l.length - start + step - 1) / step)).map
    (fun k => l.getD (start + k * step) default)

/-- separate_channels(samples, num_channels):
\x5bsamples\x5bi::num_channels\x5d for i in range(num_channels)\x5d. -/
def separate_channels {α : Type} [Inhabited α] (samples : List α) (num_channels : Nat) :
    List (List α) :=
  (List.range num_channels).map (fun c => pySliceStride samples c num_channels)

/-- generate_sample_time_points(duration):
np.arange(0, duration * SAMPLING_FREQ) / SAMPLING_FREQ, the instants
i / SAMPLING_FREQ for i = 0 .. ceil(duration * SAMPLING_FREQ) - 1. -/
noncomputable def generate_sample_time_points (duration : ℝ) : List ℝ :=
  (List.range (Nat.ceil (duration * (SAMPLING_FREQ : ℝ)))).map
    (fun i : Nat => (i : ℝ) / (SAMPLING_FREQ : ℝ))

/-- sine(freq, amplitude, duration): amplitude * sin(freq * 2 pi * t) at
every generated time point t. -/
noncomputable def sine (freq amplitude duration : ℝ) : List ℝ :=
  (generate_sample_time_points duration).map
    (fun t => amplitude * Real.sin (freq * 2 * Real.pi * t))

/-- square(freq, amplitude, duration): amplitude * np.sign(sine(freq, 1, duration)),
where np.sign maps negatives to -1, zero to 0 and positives to 1, exactly
like Real.sign. -/
noncomputable def square (freq amplitude duration : ℝ) : List ℝ :=
  (sine freq 1 duration).map (fun y => amplitude * Real.sign y)

/-- sine_with_overtones(root_freq, amplitude, overtones, duration): start
from the fundamental sine, then for each (freq_factor, amp_factor) add
sine(root_freq * freq_factor, amplitude * amp_factor, duration)
elementwise (np.add on arrays of equal length), in input order. -/
noncomputable def sine_with_overtones (root_freq amplitude : ℝ)
    (overtones : List (ℝ × ℝ)) (duration : ℝ) : List ℝ :=
  overtones.foldl
    (fun signal ov =>
      List.zipWith (fun u v => u + v) signal
        (sine (root_freq * ov.1) (amplitude * ov.2) duration))
    (sine root_freq amplitude duration)

/-- max(np.abs(samples)) for a nonempty list; folding max of the absolute
values with base 0 agrees with the Python max because every absolute
value is nonnegative. -/
noncomputable def maxAbs (samples : List ℝ) : ℝ :=
  (samples.map (fun x => |x|)).foldr max 0

/-- normalize(samples, norm_target): coeff = norm_target / max(abs(samples))
applied elementwise. Python max raises on an empty sequence, modelled as
none. This is the idealized real-number model; see normalizeFloat for
the float special values of the degenerate zero-maximum case. -/
noncomputable def normalize (samples : List ℝ) (norm_target : ℝ) : Option (List ℝ) :=
  match samples with
  | [] => none
  | _ :: _ => some (samples.map (fun x => norm_target / maxAbs samples * x))

/-- An IEEE-754 double as produced by the numpy operations used in
normalize: a finite value (modelled exactly as a rational, since the
inputs exercised involve no rounding), or one of the special values
+inf, -inf, NaN. -/
inductive FloatVal : Type
  | fin (q : ℚ)
  | pinf
  | ninf
  | nan
deriving DecidableEq, Repr

/-- IEEE division as numpy performs it on float64 scalars: dividing a
nonzero finite value by zero yields a signed infinity (with a warning,
not an exception), 0/0 yields NaN. -/
def FloatVal.div : FloatVal → FloatVal → FloatVal
  | FloatVal.fin a, FloatVal.fin b =>
      if b = 0 then
        (if 0 < a then FloatVal.pinf else if a < 0 then FloatVal.ninf else FloatVal.nan)
      else FloatVal.fin (a / b)
  | FloatVal.fin _, FloatVal.pinf => FloatVal.fin 0
  | FloatVal.fin _, FloatVal.ninf => FloatVal.fin 0
  | FloatVal.pinf, FloatVal.fin b =>
      if 0 ≤ b then FloatVal.pinf else FloatVal.ninf
  | FloatVal.ninf, FloatVal.fin b =>
      if 0 ≤ b then FloatVal.ninf else FloatVal.pinf
  | FloatVal.pinf, FloatVal.pinf => FloatVal.nan
  | FloatVal.pinf, FloatVal.ninf => FloatVal.nan
  | FloatVal.ninf, FloatVal.pinf => FloatVal.nan
  | FloatVal.ninf, FloatVal.ninf => FloatVal.nan
  | FloatVal.nan, _ => FloatVal.nan
  | _, FloatVal.nan => FloatVal.nan

/-- IEEE multiplication as numpy performs it: infinity times zero is NaN,
anything with NaN is NaN. -/
def FloatVal.mul : FloatVal → FloatVal → FloatVal
  | FloatVal.nan, _ => FloatVal.nan
  | _, FloatVal.nan => FloatVal.nan
  | FloatVal.fin a, FloatVal.fin b => FloatVal.fin (a * b)
  | FloatVal.pinf, FloatVal.fin b =>
      if 0 < b then FloatVal.pinf else if b < 0 then FloatVal.ninf else FloatVal.nan
  | FloatVal.fin b, FloatVal.pinf =>
      if 0 < b then FloatVal.pinf else if b < 0 then FloatVal.ninf else FloatVal.nan
  | FloatVal.ninf, FloatVal.fin b =>
      if 0 < b then FloatVal.ninf else if b < 0 then FloatVal.pinf else FloatVal.nan
  | FloatVal.fin b, FloatVal.ninf =>
      if 0 < b then FloatVal.ninf else if b < 0 then FloatVal.pinf else FloatVal.nan
  | FloatVal.pinf, FloatVal.pinf => FloatVal.pinf
  | FloatVal.pinf, FloatVal.ninf => FloatVal.ninf
  | FloatVal.ninf, FloatVal.pinf => FloatVal.ninf
  | FloatVal.ninf, FloatVal.ninf => FloatVal.pinf

/-- normalize(samples, norm_target) on finite float inputs, tracking the
IEEE special values: max of the absolute values (finite, exact here),
coeff = norm_target / max_sample as a numpy float64 division, then
coeff * x elementwise. Empty input raises (none), exactly as in the
real-number model. -/
def normalizeFloat (samples : List ℚ) (norm_target : ℚ) : Option (List FloatVal) :=
  match samples with
  | [] => none
  | _ :: _ =>
      some (samples.map (fun x =>
        FloatVal.mul
          (FloatVal.div (FloatVal.fin norm_target)
            (FloatVal.fin ((samples.map (fun s => |s|)).foldr max 0)))
          (FloatVal.fin x)))

/-- np.clip(x, -1, 1). -/
def clip (x : ℚ) : ℚ := max (-1) (min 1 x)

/-- The float to integer conversion step of astype: truncation toward
zero. -/
def truncTowardZero (y : ℚ) : Int :=
  if 0 ≤ y then Int.floor y else Int.ceil y

/-- Wrap an integer to the signed 16-bit range, the way a C cast to
int16 does: reduce modulo 2 to the 16 into \x5b-32768, 32768). -/
def toInt16 (n : Int) : Int :=
  if n % 65536 < 32768 then n % 65536 else n % 65536 - 65536

/-- The two little-endian bytes of the 16-bit two-complement encoding of
an int16 value, as tobytes emits them: low byte first. -/
def int16BytesLE (n : Int) : List Nat :=
  [(n % 65536).toNat % 256, (n % 65536).toNat / 256]

/-- convert_to_bytes(samples): clip every sample to \x5b-1, 1\x5d, scale by
MAX_INT_SAMPLE_VALUE, cast to int16 (truncation toward zero, then
wraparound), serialize as consecutive little-endian 2-byte values. -/
def convert_to_bytes (samples : List ℚ) : List Nat :=
  ((samples.map
      (fun x => toInt16 (truncTowardZero (clip x * (MAX_INT_SAMPLE_VALUE : ℚ))))).map
    int16BytesLE).flatten

/-- np.frombuffer with dtype of little-endian int16: read consecutive
2-byte groups, low byte first, as signed 16-bit integers. -/
def bytesToInt16s : List Nat → List Int
  | lo :: hi :: rest => toInt16 ((lo : Int) + 256 * (hi : Int)) :: bytesToInt16s rest
  | _ => []

/-- convert_to_samples(bytes): frombuffer raises when the byte count is
not a multiple of the 2-byte item size (modelled as none); otherwise
divide each decoded integer by MAX_INT_SAMPLE_VALUE. -/
def convert_to_samples (bs : List Nat) : Option (List ℚ) :=
  if bs.length % 2 = 0 then
    some ((bytesToInt16s bs).map (fun n : Int => (n : ℚ) / (MAX_INT_SAMPLE_VALUE : ℚ)))
  else none

/-- The quantized signal: each sample clipped, scaled, truncated toward
zero and scaled back. convert_to_samples after convert_to_bytes lands
exactly here. -/
def quantized (x : List ℚ) : List ℚ :=
  x.map (fun s =>
    ((truncTowardZero (clip s * (MAX_INT_SAMPLE_VALUE : ℚ)) : Int) : ℚ) /
      (MAX_INT_SAMPLE_VALUE : ℚ))

/-! ## General list lemmas -/

theorem getD_map_of_lt {α β : Type} (f : α → β) (l : List α) (i : Nat)
    (h : i < l.length) (da : α) (db : β) :
    (l.map f).getD i db = f (l.getD i da) := by
  rw [List.getD_eq_getElem (l.map f) db (by simpa using h),
    List.getD_eq_getElem l da h, List.getElem_map]

theorem getD_range_of_lt (n i : Nat) (h : i < n) (d : Nat) :
    (List.range n).getD i d = i := by
  rw [List.getD_eq_getElem (List.range n) d (by simpa using h), List.getElem_range]

theorem length_flatten_const {α : Type} (frames : List (List α)) (C : Nat)
    (h : ∀ fr ∈ frames, fr.length = C) :
    frames.flatten.length = frames.length * C := by
  induction frames with
  | nil => simp
  | cons f rest ih =>
      have hf : f.length = C := h f (List.mem_cons_self f rest)
      have hrest : ∀ fr ∈ rest, fr.length = C := fun fr hfr => h fr (List.mem_cons_of_mem f hfr)
      simp only [List.flatten_cons, List.length_append, ih hrest, hf, List.length_cons]
      ring

theorem getD_flatten_const {α : Type} (frames : List (List α)) (C : Nat) (d : α)
    (h : ∀ fr ∈ frames, fr.length = C) (k c : Nat)
    (hk : k < frames.length) (hc : c < C) :
    frames.flatten.getD (k * C + c) d = (frames.getD k []).getD c d := by
  induction frames generalizing k with
  | nil => simp at hk
  | cons f rest ih =>
      have hf : f.length = C := h f (List.mem_cons_self f rest)
      have hrest : ∀ fr ∈ rest, fr.length = C := fun fr hfr => h fr (List.mem_cons_of_mem f hfr)
      rw [List.flatten_cons]
      cases k with
      | zero =>
          have hcf : c < f.length := by omega
          have hcapp : c < (f ++ rest.flatten).length := by
            simp only [List.length_append]; omega
          rw [Nat.zero_mul, Nat.zero_add,
            List.getD_eq_getElem _ d hcapp, List.getElem_append_left hcf,
            List.getD_cons_zero, List.getD_eq_getElem _ d hcf]
      | succ k =>
          have hk' : k < rest.length := by simpa using hk
          have hidx : f.length ≤ (k + 1) * C + c := by
            rw [hf]; calc C ≤ (k + 1) * C := Nat.le_mul_of_pos_left C (Nat.succ_pos k)
              _ ≤ (k + 1) * C + c := Nat.le_add_right _ _
          rw [List.getD_append_right f rest.flatten d _ hidx, List.getD_cons_succ]
          have harith : (k + 1) * C + c - f.length = k * C + c := by
            rw [hf, Nat.succ_mul]; omega
          rw [harith, ih hrest k hk']

theorem map_getD_range {α : Type} (l : List α) (d : α) :
    (List.range l.length).map (fun k => l.getD k d) = l := by
  apply List.ext_getElem
  · simp
  · intro i h1 h2
    simp only [List.getElem_map, List.getElem_range]
    exact List.getD_eq_getElem l d h2

theorem count_strided (L C c : Nat) (hc : c < C) :
    (L * C - c + C - 1) / C = L := by
  have hC : 0 < C := by omega
  cases L with
  | zero =>
      exact Nat.div_eq_of_lt (by omega)
  | succ L =>
      have hM : C ≤ (L + 1) * C := Nat.le_mul_of_pos_left C (Nat.succ_pos L)
      have h1 : (L + 1) * C - c + C - 1 = C - 1 - c + (L + 1) * C := by omega
      rw [h1, Nat.add_mul_div_right _ _ hC, Nat.div_eq_of_lt (by omega), Nat.zero_add]

/-! ## Lemmas about the channel operations -/

theorem foldl_min_le {α : Type} (rest : List (List α)) (acc : Nat) :
    rest.foldl (fun m ch => min m ch.length) acc ≤ acc ∧
      ∀ ch ∈ rest, rest.foldl (fun m ch => min m ch.length) acc ≤ ch.length := by
  induction rest generalizing acc with
  | nil => exact ⟨Nat.le_refl acc, by simp⟩
  | cons c rest ih =>
      obtain ⟨h1, h2⟩ := ih (min acc c.length)
      refine ⟨Nat.le_trans h1 (Nat.min_le_left _ _), ?_⟩
      intro ch hch
      rcases List.mem_cons.mp hch with hcc | hmem
      · subst hcc
        exact Nat.le_trans h1 (Nat.min_le_right _ _)
      · exact h2 ch hmem

theorem foldl_min_mem {α : Type} (rest : List (List α)) (acc : Nat) :
    rest.foldl (fun m ch => min m ch.length) acc = acc ∨
      ∃ ch ∈ rest, rest.foldl (fun m ch => min m ch.length) acc = ch.length := by
  induction rest generalizing acc with
  | nil => exact Or.inl rfl
  | cons c rest ih =>
      rcases ih (min acc c.length) with h | ⟨ch, hch, h⟩
      · rcases Nat.le_total acc c.length with hle | hle
        · exact Or.inl (by rw [List.foldl_cons, h, Nat.min_eq_left hle])
        · refine Or.inr ⟨c, List.mem_cons_self c rest, ?_⟩
          rw [List.foldl_cons, h, Nat.min_eq_right hle]
      · exact Or.inr ⟨ch, List.mem_cons_of_mem c hch, h⟩

theorem foldl_min_const {α : Type} (rest : List (List α)) (L : Nat)
    (h : ∀ ch ∈ rest, ch.length = L) :
    rest.foldl (fun m ch => min m ch.length) L = L := by
  induction rest with
  | nil => rfl
  | cons c rest ih =>
      have hc : c.length = L := h c (List.mem_cons_self c rest)
      rw [List.foldl_cons, hc, Nat.min_self]
      exact ih (fun ch hch => h ch (List.mem_cons_of_mem c hch))

theorem numFrames_of_const {α : Type} (channels : List (List α)) (L : Nat)
    (hne : channels ≠ []) (h : ∀ ch ∈ channels, ch.length = L) :
    numFrames channels = L := by
  cases channels with
  | nil => exact absurd rfl hne
  | cons c rest =>
      have hc : c.length = L := h c (List.mem_cons_self c rest)
      show rest.foldl (fun m ch => min m ch.length) c.length = L
      rw [hc]
      exact foldl_min_const rest L (fun ch hch => h ch (List.mem_cons_of_mem c hch))

theorem mergeFrames_length_const {α : Type} [Inhabited α] (channels : List (List α)) :
    ∀ fr ∈ (List.range (numFrames channels)).map
      (fun i => channels.map (fun ch => ch.getD i default)), fr.length = channels.length := by
  intro fr hfr
  obtain ⟨i, _, rfl⟩ := List.mem_map.mp hfr
  exact List.length_map channels _

theorem length_merge_channels {α : Type} [Inhabited α] (channels : List (List α)) :
    (merge_channels channels).length = numFrames channels * channels.length := by
  unfold merge_channels
  rw [length_flatten_const _ channels.length (mergeFrames_length_const channels)]
  simp

theorem getD_merge_channels {α : Type} [Inhabited α] (channels : List (List α))
    (k c : Nat) (hk : k < numFrames channels) (hc : c < channels.length) :
    (merge_channels channels).getD (k * channels.length + c) default =
      (channels.getD c []).getD k default := by
  unfold merge_channels
  rw [getD_flatten_const _ channels.length default (mergeFrames_length_const channels) k c
    (by simpa using hk) hc]
  rw [getD_map_of_lt _ (List.range (numFrames channels)) k (by simpa using hk) 0 []]
  rw [getD_range_of_lt _ _ hk]
  rw [getD_map_of_lt _ channels c hc [] default]

/-- C4: for every list of equal-length channel signals,
separate_channels(merge_channels(channels), len(channels)) returns
exactly the original list of channels: interleave followed by
de-interleave is the identity. -/
theorem merge_separate_round_trip {α : Type} [Inhabited α] (channels : List (List α))
    (L : Nat) (h : ∀ ch ∈ channels, ch.length = L) :
    separate_channels (merge_channels channels) channels.length = channels := by
  by_cases hne : channels = []
  · subst hne
    simp [separate_channels]
  · have hn : numFrames channels = L := numFrames_of_const channels L hne h
    have hlen : (merge_channels channels).length = L * channels.length := by
      rw [length_merge_channels, hn]
    apply List.ext_getElem
    · simp [separate_channels]
    · intro c h1 h2
      unfold separate_channels
      simp only [List.getElem_map, List.getElem_range]
      unfold pySliceStride
      rw [hlen, count_strided L channels.length c h2]
      have hmap : ∀ k ∈ List.range L,
          (merge_channels channels).getD (c + k * channels.length) default =
            (channels.getD c []).getD k default := by
        intro k hk
        rw [Nat.add_comm c (k * channels.length)]
        exact getD_merge_channels channels k c
          (by rw [hn]; exact List.mem_range.mp hk) h2
      rw [List.map_congr_left hmap]
      have hmem : channels.getD c [] ∈ channels := by
        rw [List.getD_eq_getElem channels [] h2]
        exact List.getElem_mem h2
      have hcl : (channels.getD c []).length = L := h _ hmem
      calc (List.range L).map (fun k => (channels.getD c []).getD k default)
          = (List.range (channels.getD c []).length).map
              (fun k => (channels.getD c []).getD k default) := by rw [hcl]
        _ = channels.getD c [] := map_getD_range _ default
        _ = _ := List.getD_eq_getElem channels [] h2

/-- Witness for C4 at the concrete channel set \x5b\x5b1, 2\x5d, \x5b3, 4\x5d\x5d. -/
theorem merge_separate_round_trip_witness :
    (∀ ch ∈ [[(1:ℚ), 2], [3, 4]], ch.length = 2) ∧
      separate_channels (merge_channels [[(1:ℚ), 2], [3, 4]])
        ([[(1:ℚ), 2], [3, 4]]).length = [[(1:ℚ), 2], [3, 4]] :=
  ⟨by decide, merge_separate_round_trip [[(1:ℚ), 2], [3, 4]] 2 (by decide)⟩

/-- C10: when the channel lengths are not all equal, merge_channels
raises no error (it is total) and silently truncates: the output has
exactly C times L samples, where C is the channel count and L =
numFrames channels is the length of the shortest channel (it is a lower
bound of the lengths and is attained), and it interleaves the first L
frames of every channel. -/
theorem merge_channels_truncation {α : Type} [Inhabited α] (channels : List (List α))
    (h : ¬ ∀ c1 ∈ channels, ∀ c2 ∈ channels, c1.length = c2.length) :
    (merge_channels channels).length = channels.length * numFrames channels ∧
      (∀ ch ∈ channels, numFrames channels ≤ ch.length) ∧
      (∃ ch ∈ channels, ch.length = numFrames channels) ∧
      ∀ k c, k < numFrames channels → c < channels.length →
        (merge_channels channels).getD (k * channels.length + c) default =
          (channels.getD c []).getD k default := by
  refine ⟨by rw [length_merge_channels, Nat.mul_comm], ?_, ?_, ?_⟩
  · cases channels with
    | nil => simp at h
    | cons c0 rest =>
        intro ch hch
        rcases List.mem_cons.mp hch with hc0 | hmem
        · subst hc0
          exact (foldl_min_le rest ch.length).1
        · exact (foldl_min_le rest c0.length).2 ch hmem
  · cases channels with
    | nil => simp at h
    | cons c0 rest =>
        rcases foldl_min_mem rest c0.length with heq | ⟨ch, hch, heq⟩
        · exact ⟨c0, List.mem_cons_self c0 rest, heq.symm⟩
        · exact ⟨ch, List.mem_cons_of_mem c0 hch, heq.symm⟩
  · intro k c hk hc
    exact getD_merge_channels channels k c hk hc

/-- Witness for C10 at the unequal-length channel set \x5b\x5b1, 2\x5d, \x5b3\x5d\x5d. -/
theorem merge_channels_truncation_witness :
    (¬ ∀ c1 ∈ [[(1:ℚ), 2], [3]], ∀ c2 ∈ [[(1:ℚ), 2], [3]], c1.length = c2.length) ∧
      (merge_channels [[(1:ℚ), 2], [3]]).length =
        ([[(1:ℚ), 2], [3]]).length * numFrames [[(1:ℚ), 2], [3]] :=
  ⟨by decide, (merge_channels_truncation [[(1:ℚ), 2], [3]] (by decide)).1⟩

/-! ## Lemmas about the waveform generators -/

theorem length_generate_sample_time_points (d : ℝ) :
    (generate_sample_time_points d).length = Nat.ceil (d * 44100) := by
  simp [generate_sample_time_points, SAMPLING_FREQ]

theorem getD_generate_sample_time_points (d : ℝ) (i : Nat)
    (h : i < (generate_sample_time_points d).length) :
    (generate_sample_time_points d).getD i 0 = (i : ℝ) / 44100 := by
  unfold generate_sample_time_points at h ⊢
  rw [getD_map_of_lt _ _ i (by simpa using h) 0 0,
    getD_range_of_lt _ _ (by simpa using h)]
  norm_num [SAMPLING_FREQ]

theorem length_sine (f a d : ℝ) : (sine f a d).length = Nat.ceil (d * 44100) := by
  simp [sine, length_generate_sample_time_points]

theorem getD_sine (f a d : ℝ) (i : Nat) (h : i < (sine f a d).length) :
    (sine f a d).getD i 0 = a * Real.sin (f * 2 * Real.pi * ((i : ℝ) / 44100)) := by
  unfold sine at h ⊢
  have h' : i < (generate_sample_time_points d).length := by simpa using h
  rw [getD_map_of_lt _ _ i h' 0 0, getD_generate_sample_time_points d i h']

theorem foldl_overtones_length (rf a d : ℝ) (ovs : List (ℝ × ℝ)) (init : List ℝ)
    (hlen : init.length = Nat.ceil (d * 44100)) :
    (ovs.foldl (fun signal ov => List.zipWith (fun u v => u + v) signal
      (sine (rf * ov.1) (a * ov.2) d)) init).length = Nat.ceil (d * 44100) := by
  induction ovs generalizing init with
  | nil => exact hlen
  | cons ov rest ih =>
      rw [List.foldl_cons]
      apply ih
      rw [List.length_zipWith, hlen, length_sine, Nat.min_self]

theorem foldl_overtones_getD (rf a d : ℝ) (ovs : List (ℝ × ℝ)) (init : List ℝ)
    (hlen : init.length = Nat.ceil (d * 44100)) (i : Nat)
    (hi : i < Nat.ceil (d * 44100)) :
    (ovs.foldl (fun signal ov => List.zipWith (fun u v => u + v) signal
      (sine (rf * ov.1) (a * ov.2) d)) init).getD i 0 =
      init.getD i 0 +
        (ovs.map (fun ov => (sine (rf * ov.1) (a * ov.2) d).getD i 0)).sum := by
  induction ovs generalizing init with
  | nil => simp
  | cons ov rest ih =>
      rw [List.foldl_cons]
      have hsl : (sine (rf * ov.1) (a * ov.2) d).length = Nat.ceil (d * 44100) :=
        length_sine _ _ _
      have hzl : (List.zipWith (fun u v => u + v) init
          (sine (rf * ov.1) (a * ov.2) d)).length = Nat.ceil (d * 44100) := by
        rw [List.length_zipWith, hlen, hsl, Nat.min_self]
      rw [ih _ hzl]
      have h1 : i < init.length := by omega
      have h2 : i < (sine (rf * ov.1) (a * ov.2) d).length := by omega
      have h3 : i < (List.zipWith (fun u v => u + v) init
          (sine (rf * ov.1) (a * ov.2) d)).length := by omega
      rw [List.getD_eq_getElem _ 0 h3, List.getElem_zipWith,
        ← List.getD_eq_getElem init 0 h1, ← List.getD_eq_getElem _ 0 h2]
      simp only [List.map_cons, List.sum_cons]
      ring

/-- C2: every sample of sine(f, a, d) at index i has the exact value
a * sin(2 pi f (i / 44100)), and for positive duration the sample at
index 0 is 0 (the phase starts at zero). -/
theorem sine_value_spec (f a d : ℝ) (i : Nat) (hi : i < (sine f a d).length) :
    (sine f a d).getD i 0 = a * Real.sin (2 * Real.pi * f * ((i : ℝ) / 44100)) ∧
      (0 < d → (sine f a d).getD 0 0 = 0) := by
  constructor
  · rw [getD_sine f a d i hi]
    ring_nf
  · intro hd
    have h0 : 0 < (sine f a d).length := by
      rw [length_sine]
      exact Nat.ceil_pos.mpr (by positivity)
    rw [getD_sine f a d 0 h0]
    simp

/-- Witness for C2 at f = 1, a = 1, d = 1, i = 0. -/
theorem sine_value_spec_witness :
    0 < (sine 1 1 1).length ∧
      ((sine 1 1 1).getD 0 0 = 1 * Real.sin (2 * Real.pi * 1 * (((0 : Nat) : ℝ) / 44100)) ∧
        ((0 : ℝ) < 1 → (sine 1 1 1).getD 0 0 = 0)) := by
  have h0 : 0 < (sine 1 1 1).length := by
    rw [length_sine]
    exact Nat.ceil_pos.mpr (by norm_num)
  exact ⟨h0, sine_value_spec 1 1 1 0 h0⟩

/-- C7 counterexample: at duration 1/100000 the sine signal has 1 sample
(arange stops at the ceiling), while round(d * 44100) = round(0.441) = 0,
so the claimed length round(d * 44100) is wrong. -/
theorem sine_length_counterexample :
    ((sine 1 1 (1/100000)).length : ℤ) ≠ round ((1/100000 : ℝ) * 44100) := by
  have h1 : (sine 1 1 (1/100000)).length = 1 := by
    rw [length_sine, show (1/100000 : ℝ) * 44100 = 441/1000 by norm_num,
      Nat.ceil_eq_iff (by norm_num)]
    norm_num
  have h2 : round ((1/100000 : ℝ) * 44100) = 0 := by
    rw [show (1/100000 : ℝ) * 44100 = 441/1000 by norm_num, round_eq]
    norm_num [Int.floor_eq_iff]
  rw [h1, h2]
  norm_num

/-- C7 amended: for every frequency, amplitude and duration, the length
of sine(f, a, d) is the ceiling of d * 44100 (as a natural number, hence
0 for d not above 0), not its rounding. -/
theorem sine_length_spec (f a d : ℝ) :
    (sine f a d).length = Nat.ceil (d * 44100) :=
  length_sine f a d

/-- C9: every sample of square(f, a, d) is one of -a, 0, a: the sample is
a times the sign of a sine sample, and the sign is -1, 0 or 1. -/
theorem square_values_spec (f a d : ℝ) (i : Nat) (hi : i < (square f a d).length) :
    (square f a d).getD i 0 = -a ∨ (square f a d).getD i 0 = 0 ∨
      (square f a d).getD i 0 = a := by
  unfold square at hi ⊢
  have h' : i < (sine f 1 d).length := by simpa using hi
  rw [getD_map_of_lt _ _ i h' 0 0]
  rcases lt_trichotomy ((sine f 1 d).getD i 0) 0 with hneg | hzero | hpos
  · left
    rw [Real.sign_of_neg hneg]
    ring
  · right; left
    rw [hzero, Real.sign_zero, mul_zero]
  · right; right
    rw [Real.sign_of_pos hpos]
    ring

/-- Witness for C9 at f = 1, a = 2, d = 1, i = 0. -/
theorem square_values_spec_witness :
    0 < (square 1 2 1).length ∧
      ((square 1 2 1).getD 0 0 = -2 ∨ (square 1 2 1).getD 0 0 = 0 ∨
        (square 1 2 1).getD 0 0 = 2) := by
  have h0 : 0 < (square 1 2 1).length := by
    have hq : (square 1 2 1).length = (sine 1 1 1).length := by simp [square]
    rw [hq, length_sine]
    exact Nat.ceil_pos.mpr (by norm_num)
  exact ⟨h0, square_values_spec 1 2 1 0 h0⟩

/-- C8: sine_with_overtones(220, 1, \x5b(2, 0.5)\x5d, d) is exactly the
elementwise sum of sine(220, 1, d) and sine(440, 0.5, d); in general the
result has the length of the fundamental and each sample is the
fundamental sample plus the sum, in input order, of the corresponding
samples of sine(root_freq * freq_factor, amplitude * amp_factor,
duration) over the overtones. -/
theorem sine_with_overtones_spec :
    (∀ d : ℝ, sine_with_overtones 220 1 [(2, 0.5)] d =
      List.zipWith (fun u v => u + v) (sine 220 1 d) (sine 440 0.5 d)) ∧
    (∀ rf a d : ℝ, ∀ ovs : List (ℝ × ℝ),
      (sine_with_overtones rf a ovs d).length = (sine rf a d).length) ∧
    (∀ rf a d : ℝ, ∀ ovs : List (ℝ × ℝ), ∀ i : Nat, i < (sine rf a d).length →
      (sine_with_overtones rf a ovs d).getD i 0 =
        (sine rf a d).getD i 0 +
          (ovs.map (fun ov => (sine (rf * ov.1) (a * ov.2) d).getD i 0)).sum) := by
  refine ⟨?_, ?_, ?_⟩
  · intro d
    show List.zipWith (fun u v => u + v) (sine 220 1 d) (sine (220 * 2) (1 * 0.5) d) =
      List.zipWith (fun u v => u + v) (sine 220 1 d) (sine 440 0.5 d)
    norm_num
  · intro rf a d ovs
    rw [length_sine]
    exact foldl_overtones_length rf a d ovs _ (length_sine rf a d)
  · intro rf a d ovs i hi
    rw [length_sine] at hi
    exact foldl_overtones_getD rf a d ovs _ (length_sine rf a d) i hi

/-- Witness for C8 at root frequency 1, amplitude 1, no overtones,
duration 1, index 0. -/
theorem sine_with_overtones_spec_witness :
    0 < (sine 1 1 1).length ∧
      (sine_with_overtones 1 1 [] 1).getD 0 0 =
        (sine 1 1 1).getD 0 0 +
          (([] : List (ℝ × ℝ)).map
            (fun ov => (sine (1 * ov.1) (1 * ov.2) 1).getD 0 0)).sum := by
  have h0 : 0 < (sine 1 1 1).length := by
    rw [length_sine]
    exact Nat.ceil_pos.mpr (by norm_num)
  exact ⟨h0, sine_with_overtones_spec.2.2 1 1 1 [] 0 h0⟩

/-! ## Lemmas about the normalizer -/

theorem maxAbs_nonneg (x : List ℝ) : 0 ≤ maxAbs x := by
  unfold maxAbs
  induction x with
  | nil => simp
  | cons a rest ih =>
      simp only [List.map_cons, List.foldr_cons]
      exact le_max_of_le_right ih

theorem foldr_max_mul (c : ℝ) (hc : 0 ≤ c) (l : List ℝ) :
    (l.map (fun v => c * v)).foldr max 0 = c * l.foldr max 0 := by
  induction l with
  | nil => simp
  | cons a rest ih =>
      simp only [List.map_cons, List.foldr_cons, ih]
      exact (mul_max_of_nonneg a _ hc).symm

theorem maxAbs_map_mul (c : ℝ) (hc : 0 ≤ c) (x : List ℝ) :
    maxAbs (x.map (fun v => c * v)) = c * maxAbs x := by
  have h1 : (x.map (fun v => c * v)).map (fun v => |v|) =
      (x.map (fun v => |v|)).map (fun v => c * v) := by
    rw [List.map_map, List.map_map]
    apply List.map_congr_left
    intro a _
    simp [Function.comp_apply, abs_mul, abs_of_nonneg hc]
  show ((x.map (fun v => c * v)).map (fun v => |v|)).foldr max 0 =
    c * (x.map (fun v => |v|)).foldr max 0
  rw [h1, foldr_max_mul c hc]

/-- C3: on an empty signal, normalize raises (the Python max of an empty
sequence), but on a nonzero-length all-zero signal the claim fails in
the code: the numpy division norm_target / 0.0 yields +infinity with
only a warning, and infinity * 0.0 yields NaN, so normalize silently
returns a signal of NaN samples instead of reporting an error. The model
normalizeFloat tracks exactly these IEEE special values; this theorem
evaluates the code at the failing input (\x5b0.0, 0.0\x5d, 0.89). -/
theorem normalize_zero_signal_nan :
    normalizeFloat [0, 0] (89/100) = some [FloatVal.nan, FloatVal.nan] ∧
      normalizeFloat [] (89/100) = none := by
  constructor
  · norm_num [normalizeFloat, FloatVal.div, FloatVal.mul]
  · rfl

/-- C6 counterexample: with the negative target t = -1 and signal \x5b1\x5d,
normalize returns \x5b-1\x5d whose maximum absolute value is 1, not the
target -1; the claim cannot hold as stated for every real target. -/
theorem normalize_peak_counterexample :
    normalize [(1 : ℝ)] (-1) = some [(-1 : ℝ)] ∧ maxAbs [(-1 : ℝ)] ≠ -1 := by
  have h1 : maxAbs [(1 : ℝ)] = 1 := by
    simp [maxAbs]
  have h2 : maxAbs [(-1 : ℝ)] = 1 := by
    simp [maxAbs]
  constructor
  · show some ([(1 : ℝ)].map (fun v => (-1) / maxAbs [(1 : ℝ)] * v)) = some [(-1 : ℝ)]
    rw [h1]
    norm_num
  · rw [h2]
    norm_num

/-- C6 amended: for every nonempty signal x with nonzero maximum absolute
value and every nonnegative target t, normalize(x, t) returns the signal
scaled elementwise by the single coefficient t / maxAbs x, and the
maximum absolute value of the result is exactly t. (For a negative
target the peak is -t, see the counterexample.) -/
theorem normalize_peak_spec (x : List ℝ) (t : ℝ) (hx : x ≠ []) (hm : maxAbs x ≠ 0)
    (ht : 0 ≤ t) :
    normalize x t = some (x.map (fun v => t / maxAbs x * v)) ∧
      maxAbs (x.map (fun v => t / maxAbs x * v)) = t := by
  constructor
  · cases x with
    | nil => exact absurd rfl hx
    | cons a rest => rfl
  · have hpos : 0 < maxAbs x := lt_of_le_of_ne (maxAbs_nonneg x) (Ne.symm hm)
    rw [maxAbs_map_mul _ (div_nonneg ht (le_of_lt hpos))]
    exact div_mul_cancel₀ t hm

/-- Witness for C6 at x = \x5b1\x5d, t = 1. -/
theorem normalize_peak_spec_witness :
    ([(1 : ℝ)] ≠ [] ∧ maxAbs [(1 : ℝ)] ≠ 0 ∧ (0 : ℝ) ≤ 1) ∧
      (normalize [(1 : ℝ)] 1 = some ([(1 : ℝ)].map (fun v => 1 / maxAbs [(1 : ℝ)] * v)) ∧
        maxAbs ([(1 : ℝ)].map (fun v => 1 / maxAbs [(1 : ℝ)] * v)) = 1) := by
  have h1 : maxAbs [(1 : ℝ)] = 1 := by simp [maxAbs]
  have hne : [(1 : ℝ)] ≠ [] := by simp
  have hm : maxAbs [(1 : ℝ)] ≠ 0 := by rw [h1]; norm_num
  exact ⟨⟨hne, hm, by norm_num⟩, normalize_peak_spec [(1 : ℝ)] 1 hne hm (by norm_num)⟩

/-! ## Lemmas about the PCM codec -/

theorem max_int_sample_value_eq : (MAX_INT_SAMPLE_VALUE : ℚ) = 32767 := by
  norm_num [MAX_INT_SAMPLE_VALUE, SAMPLE_WIDTH]

theorem clip_mem (x : ℚ) : -1 ≤ clip x ∧ clip x ≤ 1 := by
  unfold clip
  refine ⟨le_max_left _ _, max_le (by norm_num) (min_le_left _ _)⟩

theorem truncTowardZero_bounds (y : ℚ) (h1 : -32767 ≤ y) (h2 : y ≤ 32767) :
    -32767 ≤ truncTowardZero y ∧ truncTowardZero y ≤ 32767 := by
  unfold truncTowardZero
  split
  case isTrue h =>
    constructor
    · have hnn : (0 : ℤ) ≤ Int.floor y := Int.floor_nonneg.mpr h
      omega
    · have hle : (Int.floor y : ℚ) ≤ 32767 := le_trans (Int.floor_le y) h2
      exact_mod_cast hle
  case isFalse h =>
    constructor
    · have hge : (-32767 : ℚ) ≤ (Int.ceil y : ℚ) := le_trans h1 (Int.le_ceil y)
      exact_mod_cast hge
    · have hlt : (Int.ceil y : ℚ) < y + 1 := Int.ceil_lt_add_one y
      have hle : (Int.ceil y : ℚ) < 1 := by
        push_neg at h
        linarith
      have : Int.ceil y < 1 := by exact_mod_cast hle
      omega

theorem truncTowardZero_close (y : ℚ) : |(truncTowardZero y : ℚ) - y| ≤ 1 := by
  unfold truncTowardZero
  split
  case isTrue h =>
    rw [abs_le]
    have hlow : y - 1 < (Int.floor y : ℚ) := Int.sub_one_lt_floor y
    have hhigh : (Int.floor y : ℚ) ≤ y := Int.floor_le y
    constructor <;> linarith
  case isFalse h =>
    rw [abs_le]
    have hlow : y ≤ (Int.ceil y : ℚ) := Int.le_ceil y
    have hhigh : (Int.ceil y : ℚ) < y + 1 := Int.ceil_lt_add_one y
    constructor <;> linarith

theorem toInt16_eq_self (n : Int) (h1 : -32768 ≤ n) (h2 : n < 32768) :
    toInt16 n = n := by
  unfold toInt16
  split <;> omega

theorem toInt16_range (n : Int) : -32768 ≤ toInt16 n ∧ toInt16 n < 32768 := by
  unfold toInt16
  split <;> constructor <;> omega

theorem toInt16_emod (n : Int) : toInt16 n % 65536 = n % 65536 := by
  unfold toInt16
  split <;> omega

theorem toInt16_emod_eq (n : Int) : toInt16 (n % 65536) = toInt16 n := by
  unfold toInt16
  split <;> split <;> omega

theorem int16BytesLE_toInt16 (n : Int) : int16BytesLE (toInt16 n) = int16BytesLE n := by
  unfold int16BytesLE
  rw [toInt16_emod]

theorem bytesToInt16s_cons (lo hi : Nat) (rest : List Nat) :
    bytesToInt16s (lo :: hi :: rest) =
      toInt16 ((lo : Int) + 256 * (hi : Int)) :: bytesToInt16s rest := rfl

theorem bytesToInt16s_encode (n : Int) (rest : List Nat) :
    bytesToInt16s (int16BytesLE n ++ rest) = toInt16 n :: bytesToInt16s rest := by
  have hnn : (0 : ℤ) ≤ n % 65536 := Int.emod_nonneg n (by norm_num)
  have hcast : (((n % 65536).toNat : ℤ)) = n % 65536 := Int.toNat_of_nonneg hnn
  have harg : (((n % 65536).toNat % 256 : Nat) : ℤ) +
      256 * (((n % 65536).toNat / 256 : Nat) : ℤ) = n % 65536 := by
    push_cast
    omega
  calc bytesToInt16s (int16BytesLE n ++ rest)
      = toInt16 ((((n % 65536).toNat % 256 : Nat) : ℤ) +
          256 * (((n % 65536).toNat / 256 : Nat) : ℤ)) :: bytesToInt16s rest :=
        bytesToInt16s_cons _ _ _
    _ = toInt16 n :: bytesToInt16s rest := by rw [harg, toInt16_emod_eq]

theorem trunc_clip_range (s : ℚ) :
    -32767 ≤ truncTowardZero (clip s * (MAX_INT_SAMPLE_VALUE : ℚ)) ∧
      truncTowardZero (clip s * (MAX_INT_SAMPLE_VALUE : ℚ)) ≤ 32767 := by
  obtain ⟨hl, hr⟩ := clip_mem s
  rw [max_int_sample_value_eq]
  apply truncTowardZero_bounds <;> nlinarith

theorem toInt16_trunc_clip (s : ℚ) :
    toInt16 (truncTowardZero (clip s * (MAX_INT_SAMPLE_VALUE : ℚ))) =
      truncTowardZero (clip s * (MAX_INT_SAMPLE_VALUE : ℚ)) := by
  obtain ⟨h1, h2⟩ := trunc_clip_range s
  exact toInt16_eq_self _ (by omega) (by omega)

theorem length_convert_to_bytes (x : List ℚ) :
    (convert_to_bytes x).length = 2 * x.length := by
  unfold convert_to_bytes
  rw [length_flatten_const _ 2]
  · simp [Nat.mul_comm]
  · intro fr hfr
    obtain ⟨n, _, rfl⟩ := List.mem_map.mp hfr
    rfl

theorem bytesToInt16s_convert (x : List ℚ) :
    bytesToInt16s (convert_to_bytes x) =
      x.map (fun s => truncTowardZero (clip s * (MAX_INT_SAMPLE_VALUE : ℚ))) := by
  induction x with
  | nil => rfl
  | cons a rest ih =>
      show bytesToInt16s
        (int16BytesLE (toInt16 (truncTowardZero (clip a * (MAX_INT_SAMPLE_VALUE : ℚ)))) ++
          convert_to_bytes rest) = _
      rw [bytesToInt16s_encode, ih, toInt16_trunc_clip, toInt16_trunc_clip, List.map_cons]

theorem convert_samples_of_bytes (x : List ℚ) :
    convert_to_samples (convert_to_bytes x) = some (quantized x) := by
  unfold convert_to_samples
  rw [if_pos (by rw [length_convert_to_bytes]; omega), bytesToInt16s_convert, List.map_map]
  rfl

theorem clip_eq_self (s : ℚ) (h : |s| ≤ 1) : clip s = s := by
  rw [abs_le] at h
  unfold clip
  rw [min_eq_right h.2, max_eq_right h.1]

theorem quantized_close (x : List ℚ) (i : Nat) (hi : i < x.length) :
    |(quantized x).getD i 0 - clip (x.getD i 0)| ≤ 1 / 32767 := by
  unfold quantized
  rw [getD_map_of_lt _ _ i hi 0 0, max_int_sample_value_eq]
  have h := truncTowardZero_close (clip (x.getD i 0) * 32767)
  rw [show (truncTowardZero (clip (x.getD i 0) * 32767) : ℚ) / 32767 - clip (x.getD i 0) =
      ((truncTowardZero (clip (x.getD i 0) * 32767) : ℚ) - clip (x.getD i 0) * 32767) / 32767
    by ring]
  rw [abs_div, show |(32767 : ℚ)| = 32767 by norm_num]
  exact (div_le_div_iff_of_pos_right (by norm_num)).mpr h

/-- C5: the PCM round trip convert_to_samples after convert_to_bytes
always succeeds, preserves the sample count, and each resulting sample
is within one quantization step 1/32767 of the clipped input sample;
when the input sample already lies in \x5b-1, 1\x5d the bound holds against
the input sample itself. -/
theorem pcm_round_trip_bound (x : List ℚ) (i : Nat) (hi : i < x.length) :
    convert_to_samples (convert_to_bytes x) = some (quantized x) ∧
      (quantized x).length = x.length ∧
      |(quantized x).getD i 0 - clip (x.getD i 0)| ≤ 1 / 32767 ∧
      (|x.getD i 0| ≤ 1 → |(quantized x).getD i 0 - x.getD i 0| ≤ 1 / 32767) := by
  refine ⟨convert_samples_of_bytes x, List.length_map x _, quantized_close x i hi, ?_⟩
  intro h
  have hq := quantized_close x i hi
  rwa [clip_eq_self _ h] at hq

/-- Witness for C5 at x = \x5b1/3\x5d, i = 0. -/
theorem pcm_round_trip_bound_witness :
    0 < ([(1/3 : ℚ)]).length ∧
      (convert_to_samples (convert_to_bytes [(1/3 : ℚ)]) = some (quantized [(1/3 : ℚ)]) ∧
        (quantized [(1/3 : ℚ)]).length = ([(1/3 : ℚ)]).length ∧
        |(quantized [(1/3 : ℚ)]).getD 0 0 - clip (([(1/3 : ℚ)]).getD 0 0)| ≤ 1 / 32767 ∧
        (|([(1/3 : ℚ)]).getD 0 0| ≤ 1 →
          |(quantized [(1/3 : ℚ)]).getD 0 0 - ([(1/3 : ℚ)]).getD 0 0| ≤ 1 / 32767)) := by
  have h0 : 0 < ([(1/3 : ℚ)]).length := by simp
  exact ⟨h0, pcm_round_trip_bound [(1/3 : ℚ)] 0 h0⟩

/-- C1: convert_to_bytes clips each sample to \x5b-1, 1\x5d, scales by 32767
and truncates toward zero to a value in the signed 16-bit range, and
serializes each value as 2 little-endian bytes in sample order, so the
output has exactly 2 bytes per input sample; in particular
convert_to_bytes(\x5b1.0, -1.0\x5d) is the byte sequence FF 7F 01 80. -/
theorem convert_to_bytes_spec :
    (∀ samples : List ℚ, (convert_to_bytes samples).length = 2 * samples.length) ∧
    (∀ samples : List ℚ, ∀ i : Nat, i < samples.length →
      (-32767 ≤ truncTowardZero (clip (samples.getD i 0) * (MAX_INT_SAMPLE_VALUE : ℚ)) ∧
        truncTowardZero (clip (samples.getD i 0) * (MAX_INT_SAMPLE_VALUE : ℚ)) ≤ 32767) ∧
      [(convert_to_bytes samples).getD (2 * i) 0,
        (convert_to_bytes samples).getD (2 * i + 1) 0] =
        int16BytesLE (truncTowardZero (clip (samples.getD i 0) * (MAX_INT_SAMPLE_VALUE : ℚ)))) ∧
    convert_to_bytes [1, -1] = [255, 127, 1, 128] := by
  refine ⟨length_convert_to_bytes, ?_, ?_⟩
  · intro samples i hi
    refine ⟨trunc_clip_range _, ?_⟩
    have hframes : ∀ fr ∈ (samples.map (fun x =>
        toInt16 (truncTowardZero (clip x * (MAX_INT_SAMPLE_VALUE : ℚ))))).map int16BytesLE,
        fr.length = 2 := by
      intro fr hfr
      obtain ⟨n, _, rfl⟩ := List.mem_map.mp hfr
      rfl
    have hlenf : i < ((samples.map (fun x =>
        toInt16 (truncTowardZero (clip x * (MAX_INT_SAMPLE_VALUE : ℚ))))).map
          int16BytesLE).length := by
      simpa using hi
    have hgetf : ((samples.map (fun x =>
        toInt16 (truncTowardZero (clip x * (MAX_INT_SAMPLE_VALUE : ℚ))))).map
          int16BytesLE).getD i [] =
        int16BytesLE (toInt16 (truncTowardZero
          (clip (samples.getD i 0) * (MAX_INT_SAMPLE_VALUE : ℚ)))) := by
      rw [getD_map_of_lt _ _ i (by simpa using hi) 0 [],
        getD_map_of_lt _ _ i hi 0 0]
    have e0 : (convert_to_bytes samples).getD (2 * i) 0 =
        (int16BytesLE (toInt16 (truncTowardZero
          (clip (samples.getD i 0) * (MAX_INT_SAMPLE_VALUE : ℚ))))).getD 0 0 := by
      unfold convert_to_bytes
      rw [show 2 * i = i * 2 + 0 by ring,
        getD_flatten_const _ 2 0 hframes i 0 hlenf (by norm_num), hgetf]
    have e1 : (convert_to_bytes samples).getD (2 * i + 1) 0 =
        (int16BytesLE (toInt16 (truncTowardZero
          (clip (samples.getD i 0) * (MAX_INT_SAMPLE_VALUE : ℚ))))).getD 1 0 := by
      unfold convert_to_bytes
      rw [show 2 * i + 1 = i * 2 + 1 by ring,
        getD_flatten_const _ 2 0 hframes i 1 hlenf (by norm_num), hgetf]
    rw [e0, e1, int16BytesLE_toInt16]
    rfl
  · have hc1 : clip 1 = 1 := by
      unfold clip
      rw [min_self]
      exact max_eq_right (by norm_num)
    have hc2 : clip (-1) = -1 := by
      unfold clip
      rw [min_eq_right (by norm_num), max_self]
    have ht1 : truncTowardZero (clip 1 * (MAX_INT_SAMPLE_VALUE : ℚ)) = 32767 := by
      rw [hc1, max_int_sample_value_eq, one_mul]
      unfold truncTowardZero
      rw [if_pos (by norm_num), show (32767 : ℚ) = ((32767 : ℤ) : ℚ) by norm_num,
        Int.floor_intCast]
    have ht2 : truncTowardZero (clip (-1) * (MAX_INT_SAMPLE_VALUE : ℚ)) = -32767 := by
      rw [hc2, max_int_sample_value_eq]
      unfold truncTowardZero
      rw [if_neg (by norm_num), show (-1 : ℚ) * 32767 = ((-32767 : ℤ) : ℚ) by norm_num,
        Int.ceil_intCast]
    show (([toInt16 (truncTowardZero (clip 1 * (MAX_INT_SAMPLE_VALUE : ℚ))),
        toInt16 (truncTowardZero (clip (-1) * (MAX_INT_SAMPLE_VALUE : ℚ)))]).map
          int16BytesLE).flatten = [255, 127, 1, 128]
    rw [ht1, ht2]
    decide

/-- Witness for C1 at samples = \x5b1, -1\x5d, i = 0. -/
theorem convert_to_bytes_spec_witness :
    0 < ([(1 : ℚ), -1]).length ∧
      ((-32767 ≤ truncTowardZero (clip (([(1 : ℚ), -1]).getD 0 0) * (MAX_INT_SAMPLE_VALUE : ℚ)) ∧
        truncTowardZero (clip (([(1 : ℚ), -1]).getD 0 0) * (MAX_INT_SAMPLE_VALUE : ℚ)) ≤ 32767) ∧
      [(convert_to_bytes [(1 : ℚ), -1]).getD (2 * 0) 0,
        (convert_to_bytes [(1 : ℚ), -1]).getD (2 * 0 + 1) 0] =
        int16BytesLE (truncTowardZero
          (clip (([(1 : ℚ), -1]).getD 0 0) * (MAX_INT_SAMPLE_VALUE : ℚ)))) := by
  have h0 : 0 < ([(1 : ℚ), -1]).length := by simp
  exact ⟨h0, convert_to_bytes_spec.2.1 [(1 : ℚ), -1] 0 h0⟩

end Audio
